import Mathlib

/-!
Shallow embedding of the Phase Calculator plugin
(`Source/Plugins/PhaseCalculator/PhaseCalculator.cpp`) and proofs about it.

Sample values are modelled as rationals (`ℚ`); the C++ code computes with
`float`/`double`, whose field arithmetic the rationals mirror exactly at the
level of the algebraic identities the specification states.  External numeric
backends (FFTW plans, `std::arg`, the Burg AR estimator, the DSP bandpass
filter) are parameters of the model, as the specification treats them as
external primitives with black-box contracts.
-/

/-- Map a function of the index over a list, starting the index count at `k`.
Used to express in-place indexed writes to a C array. -/
def mapIdxFrom {α : Type} (f : ℕ → α → α) : ℕ → List α → List α
  | _, [] => []
  | k, x :: xs => f k x :: mapIdxFrom f (k + 1) xs

theorem mapIdxFrom_length {α : Type} (f : ℕ → α → α) (k : ℕ) (l : List α) :
    (mapIdxFrom f k l).length = l.length := by
  induction l generalizing k with
  | nil => rfl
  | cons x xs ih => simp [mapIdxFrom, ih]

theorem mapIdxFrom_getElem {α : Type} (f : ℕ → α → α) (k : ℕ) (l : List α)
    (i : ℕ) (hi : i < l.length) (hlen : i < (mapIdxFrom f k l).length) :
    (mapIdxFrom f k l)[i] = f (k + i) l[i] := by
  induction l generalizing k i with
  | nil => simp at hi
  | cons x xs ih =>
    cases i with
    | zero => rfl
    | succ j =>
      have hj : j < xs.length := by simpa using hi
      have hj2 : j < (mapIdxFrom f (k + 1) xs).length := by
        rw [mapIdxFrom_length]
        exact hj
      have := ih (k + 1) j hj hj2
      simpa [mapIdxFrom, Nat.add_assoc, Nat.add_comm 1 j] using this

theorem mapIdxFrom_getElemBang {α : Type} [Inhabited α] (f : ℕ → α → α) (k : ℕ)
    (l : List α) (i : ℕ) (hi : i < l.length) :
    (mapIdxFrom f k l)[i]! = f (k + i) l[i]! := by
  have hlen : i < (mapIdxFrom f k l).length := by rw [mapIdxFrom_length]; exact hi
  rw [getElem!_pos (mapIdxFrom f k l) i hlen, getElem!_pos l i hi]
  exact mapIdxFrom_getElem f k l i hi hlen

/-!
## hilbertManip

Translated from the anonymous-namespace function `hilbertManip` in
`PhaseCalculator.cpp` (lines 57–77).  Complex entries are pairs of rationals.
For `n ≥ 1` the natural-number index bounds below agree exactly with the C
computation `lastPosFreq = (int) round(ceil(n / 2.0) - 1)` and
`firstNegFreq = (int) round(floor(n / 2.0) + 1)` (at `n = 0` the list is
empty, so the bounds are never consulted).
-/

/-- The per-bin scaling `hilbertManip` applies at index `i` of a spectrum of
length `n`: positive frequencies are normalized and doubled, DC and (for even
`n`) the Nyquist bin are normalized only, and negative frequencies are zeroed. -/
def hilbertScale (n : ℕ) (i : ℕ) (z : ℚ × ℚ) : ℚ × ℚ :=
  let lastPosFreq := (n + 1) / 2 - 1
  let firstNegFreq := n / 2 + 1
  if 0 < i ∧ i ≤ lastPosFreq then
    ((2 / (n : ℚ)) * z.1, (2 / (n : ℚ)) * z.2)
  else if i < firstNegFreq then
    (z.1 / (n : ℚ), z.2 / (n : ℚ))
  else
    (0, 0)

/-- Frequency-domain Hilbert manipulation of a spectrum, including the `1/n`
normalization (from `hilbertManip`, `PhaseCalculator.cpp` lines 57–77). -/
def hilbertManip (fftData : List (ℚ × ℚ)) : List (ℚ × ℚ) :=
  mapIdxFrom (fun i z => hilbertScale fftData.length i z) 0 fftData

theorem hilbertManip_length (l : List (ℚ × ℚ)) : (hilbertManip l).length = l.length :=
  mapIdxFrom_length _ 0 l

theorem hilbertManip_getElemBang (l : List (ℚ × ℚ)) (i : ℕ) (hi : i < l.length) :
    (hilbertManip l)[i]! = hilbertScale l.length i l[i]! := by
  simpa using mapIdxFrom_getElemBang (fun i z => hilbertScale l.length i z) 0 l i hi

/-- C2: for every spectrum of length `n ≥ 1`, `hilbertManip` scales the DC bin
by `1/n`, scales every bin `1 ≤ i ≤ ⌈n/2⌉ − 1` by `2/n`, scales the Nyquist
bin `n/2` by `1/n` when `n` is even, and zeroes every remaining bin. -/
theorem hilbertManip_spec (l : List (ℚ × ℚ)) (i : ℕ) (hi : i < l.length) :
    (i = 0 → (hilbertManip l)[i]! = ((l[i]!).1 / (l.length : ℚ), (l[i]!).2 / (l.length : ℚ))) ∧
    (1 ≤ i → i ≤ (l.length + 1) / 2 - 1 →
      (hilbertManip l)[i]! = ((2 / (l.length : ℚ)) * (l[i]!).1, (2 / (l.length : ℚ)) * (l[i]!).2)) ∧
    (l.length % 2 = 0 → i = l.length / 2 →
      (hilbertManip l)[i]! = ((l[i]!).1 / (l.length : ℚ), (l[i]!).2 / (l.length : ℚ))) ∧
    (¬ i = 0 → ¬ (1 ≤ i ∧ i ≤ (l.length + 1) / 2 - 1) →
      ¬ (l.length % 2 = 0 ∧ i = l.length / 2) →
      (hilbertManip l)[i]! = (0, 0)) := by
  rw [hilbertManip_getElemBang l i hi]
  refine ⟨?_, ?_, ?_, ?_⟩
  · rintro rfl
    have h1 : ¬ (0 < 0 ∧ 0 ≤ (l.length + 1) / 2 - 1) := by omega
    have h2 : 0 < l.length / 2 + 1 := by omega
    simp [hilbertScale, h1, h2]
  · intro h1 h2
    have hc : 0 < i ∧ i ≤ (l.length + 1) / 2 - 1 := ⟨h1, h2⟩
    simp [hilbertScale, hc]
  · intro heven hnyq
    have h1 : ¬ (0 < i ∧ i ≤ (l.length + 1) / 2 - 1) := by omega
    have h2 : i < l.length / 2 + 1 := by omega
    simp [hilbertScale, h1, h2]
  · intro h0 hpos hnyq
    have h1 : ¬ (0 < i ∧ i ≤ (l.length + 1) / 2 - 1) := by omega
    have h2 : ¬ i < l.length / 2 + 1 := by omega
    simp [hilbertScale, h1, h2]

/-- Witness for `hilbertManip_spec` at a concrete spectrum of length 4. -/
theorem hilbertManip_spec_witness :
    (1 : ℕ) < ([((1 : ℚ), 0), (2, 0), (3, 0), (4, 0)] : List (ℚ × ℚ)).length ∧
    (hilbertManip [((1 : ℚ), 0), (2, 0), (3, 0), (4, 0)])[1]! =
      ((2 / (4 : ℚ)) * 2, (2 / (4 : ℚ)) * 0) := by
  constructor
  · decide
  · exact (hilbertManip_spec [((1 : ℚ), 0), (2, 0), (3, 0), (4, 0)] 1 (by decide)).2.1
      (by decide) (by decide)

/-!
## arPredict

Translated from the anonymous-namespace function `arPredict` in
`PhaseCalculator.cpp` (lines 42–51).  The C function writes `writeNum`
predictions in place after at least `AR_ORDER` existing data points; here the
existing data is the explicit list `prev` and the function returns the list of
predictions, each computed from the reversed tail of all data written so far
(`std::inner_product` of the coefficient array with a reverse iterator that
starts at the element just before the write position).
-/

/-- Fixed autoregressive model order (`#define AR_ORDER 20` in the header). -/
def AR_ORDER : ℕ := 20

/-- AR forward prediction (from `arPredict`, `PhaseCalculator.cpp` lines
42–51): each new value is the negated inner product of the first `AR_ORDER`
coefficients with the immediately preceding data in reverse order, and is
appended to the data before the next value is computed. -/
def arPredict (prev : List ℚ) (writeNum : ℕ) (params : List ℚ) : List ℚ :=
  match writeNum with
  | 0 => []
  | m + 1 =>
    let next := -(List.zipWith (· * ·) (params.take AR_ORDER) prev.reverse).sum
    next :: arPredict (prev ++ [next]) m params

theorem getElemBang_append_left {α : Type} [Inhabited α] (l₁ l₂ : List α) (i : ℕ)
    (h : i < l₁.length) : (l₁ ++ l₂)[i]! = l₁[i]! := by
  have h' : i < (l₁ ++ l₂).length := by simp; omega
  rw [getElem!_pos (l₁ ++ l₂) i h', getElem!_pos l₁ i h]
  exact List.getElem_append_left h

theorem getElemBang_append_cons {α : Type} [Inhabited α] (l₁ l₂ : List α) (x : α) :
    (l₁ ++ x :: l₂)[l₁.length]! = x := by
  have h' : l₁.length < (l₁ ++ x :: l₂).length := by simp
  rw [getElem!_pos (l₁ ++ x :: l₂) l₁.length h']
  rw [List.getElem_append_right (Nat.le_refl _)]
  simp

/-- Sum of a pointwise product of two lists, as a `Finset.range` sum. -/
theorem zipWith_mul_sum (a b : List ℚ) :
    (List.zipWith (· * ·) a b).sum =
      ∑ k ∈ Finset.range (min a.length b.length), a[k]! * b[k]! := by
  induction a generalizing b with
  | nil => simp
  | cons x xs ih =>
    cases b with
    | nil => simp
    | cons y ys =>
      have hmin : min (x :: xs).length (y :: ys).length = min xs.length ys.length + 1 := by
        simp [Nat.succ_min_succ]
      rw [hmin, Finset.sum_range_succ']
      simp only [List.getElem!_cons_succ, List.getElem!_cons_zero]
      simp [List.zipWith, ih ys, add_comm]

/-- C8: `arPredict` writes, for every `i < writeNum` in order, the value
`−Σ_{k<AR_ORDER} params[k] · data[prev.length + i − 1 − k]` where `data` is
`prev` followed by the predictions themselves, so later predictions consume
earlier ones. -/
theorem arPredict_spec (params : List ℚ) (hp : params.length = AR_ORDER)
    (prev : List ℚ) (hl : AR_ORDER ≤ prev.length) (writeNum : ℕ)
    (i : ℕ) (hi : i < writeNum) :
    (prev ++ arPredict prev writeNum params)[prev.length + i]! =
      -(∑ k ∈ Finset.range AR_ORDER,
          params[k]! * (prev ++ arPredict prev writeNum params)[prev.length + i - 1 - k]!) := by
  induction writeNum generalizing prev i with
  | zero => omega
  | succ m ih =>
    have hrev : prev.reverse.length = prev.length := by simp
    have htake : (params.take AR_ORDER).length = AR_ORDER := by
      simp [hp]
    cases i with
    | zero =>
      rw [arPredict]
      simp only [Nat.add_zero]
      rw [getElemBang_append_cons]
      congr 1
      have step1 : (∑ k ∈ Finset.range AR_ORDER, params[k]! *
          (prev ++ (-(List.zipWith (· * ·) (params.take AR_ORDER) prev.reverse).sum ::
            arPredict (prev ++ [-(List.zipWith (· * ·) (params.take AR_ORDER) prev.reverse).sum]) m params))[prev.length - 1 - k]!) =
          ∑ k ∈ Finset.range AR_ORDER, params[k]! * prev[prev.length - 1 - k]! := by
        apply Finset.sum_congr rfl
        intro k hk
        have hk' : k < AR_ORDER := Finset.mem_range.mp hk
        have h3 := getElemBang_append_left prev
          (-(List.zipWith (· * ·) (params.take AR_ORDER) prev.reverse).sum ::
            arPredict (prev ++ [-(List.zipWith (· * ·) (params.take AR_ORDER) prev.reverse).sum]) m params)
          (prev.length - 1 - k) (by omega)
        rw [h3]
      rw [step1, zipWith_mul_sum, htake, hrev, min_eq_left hl]
      apply Finset.sum_congr rfl
      intro k hk
      have hk' : k < AR_ORDER := Finset.mem_range.mp hk
      have h1 : (params.take AR_ORDER)[k]! = params[k]! := by
        rw [getElem!_pos (params.take AR_ORDER) k (by omega),
          getElem!_pos params k (by omega)]
        exact List.getElem_take params
      have h2 : prev.reverse[k]! = prev[prev.length - 1 - k]! := by
        have hb : k < prev.reverse.length := by omega
        rw [getElem!_pos prev.reverse k hb,
          getElem!_pos prev (prev.length - 1 - k) (by omega)]
        exact List.getElem_reverse hb
      rw [h1, h2]
    | succ j =>
      have hj : j < m := by omega
      rw [arPredict]
      have hassoc : prev ++ (-(List.zipWith (· * ·) (params.take AR_ORDER) prev.reverse).sum ::
          arPredict (prev ++ [-(List.zipWith (· * ·) (params.take AR_ORDER) prev.reverse).sum]) m params) =
          (prev ++ [-(List.zipWith (· * ·) (params.take AR_ORDER) prev.reverse).sum]) ++
          arPredict (prev ++ [-(List.zipWith (· * ·) (params.take AR_ORDER) prev.reverse).sum]) m params := by
        simp
      rw [hassoc]
      have hlen' : (prev ++ [-(List.zipWith (· * ·) (params.take AR_ORDER) prev.reverse).sum]).length =
          prev.length + 1 := by simp
      have := ih (prev ++ [-(List.zipWith (· * ·) (params.take AR_ORDER) prev.reverse).sum])
        (by simp; omega) j hj
      rw [hlen'] at this
      have hidx : prev.length + 1 + j = prev.length + (j + 1) := by omega
      rw [hidx] at this
      rw [this]

/-- Witness for `arPredict_spec`: a concrete order-20 prediction.  With all
coefficients equal to `−1/20` and twenty preceding samples all equal to `1`,
the first predicted value is the mean `1`. -/
theorem arPredict_spec_witness :
    (List.replicate 20 (-1/20 : ℚ)).length = AR_ORDER ∧
    AR_ORDER ≤ (List.replicate 20 (1 : ℚ)).length ∧
    (List.replicate 20 (1 : ℚ) ++
        arPredict (List.replicate 20 (1 : ℚ)) 1 (List.replicate 20 (-1/20 : ℚ)))[(List.replicate 20 (1 : ℚ)).length + 0]! =
      -(∑ k ∈ Finset.range AR_ORDER,
          (List.replicate 20 (-1/20 : ℚ))[k]! *
          (List.replicate 20 (1 : ℚ) ++
            arPredict (List.replicate 20 (1 : ℚ)) 1 (List.replicate 20 (-1/20 : ℚ)))[(List.replicate 20 (1 : ℚ)).length + 0 - 1 - k]!) := by
  refine ⟨by decide, by decide, ?_⟩
  exact arPredict_spec (List.replicate 20 (-1/20 : ℚ)) (by decide)
    (List.replicate 20 (1 : ℚ)) (by decide) 1 0 (by decide)

/-!
## unwrapBuffer

Translated from `PhaseCalculator::unwrapBuffer` (`PhaseCalculator.cpp` lines
357–389).  The outer `for` loop is modelled with explicit fuel (the loop index
strictly increases each iteration and stops at `nSamples − 1`, so fuel
`wp.length` is enough); the inner search loop is modelled as the first index
of the searched range satisfying the loop's break condition, and the exit
value of `currInd` when nothing is found is `min (startInd + glitchLimit + 1)
wp.length`, which equals `nSamples` exactly when the search ran to the end of
the buffer.
-/

/-- Break condition of the inner search loop of `unwrapBuffer`: a jump at `j`
of magnitude more than 180 in the direction opposite to `diff`. -/
def oppJumpAt (wp : List ℚ) (diff : ℚ) (j : ℕ) : Bool :=
  decide (|wp[j]! - wp[j - 1]!| > 180) && (decide (diff > 0) != decide (wp[j]! - wp[j - 1]! > 0))

/-- The inner search loop of `unwrapBuffer`: the first index in
`[startInd + 1, min (startInd + glitchLimit, wp.length − 1)]` at which a jump
opposite to `diff` occurs. -/
def findOppJump (wp : List ℚ) (diff : ℚ) (startInd glitchLimit : ℕ) : Option ℕ :=
  (List.range' (startInd + 1) (min (startInd + glitchLimit + 1) wp.length - (startInd + 1))).find?
    (fun j => oppJumpAt wp diff j)

/-- In-place `wp[i] += delta` for every `i ∈ [s, e)`. -/
def unwrapRange (wp : List ℚ) (s e : ℕ) (delta : ℚ) : List ℚ :=
  mapIdxFrom (fun i x => if s ≤ i ∧ i < e then x + delta else x) 0 wp

/-- The difference `wp[startInd] − previous sample`, where the previous sample
of index 0 is the previous block's last emitted sample. -/
def jumpDiff (lastSample : ℚ) (wp : List ℚ) (startInd : ℕ) : ℚ :=
  wp[startInd]! - (if startInd = 0 then lastSample else wp[startInd - 1]!)

/-- The outer loop of `unwrapBuffer`, starting at index `startInd`. -/
def unwrapLoop (lastSample : ℚ) (glitchLimit : ℕ) : ℕ → ℕ → List ℚ → List ℚ
  | 0, _, wp => wp
  | fuel + 1, startInd, wp =>
    if startInd < wp.length - 1 then
      if |jumpDiff lastSample wp startInd| > 180 then
        match findOppJump wp (jumpDiff lastSample wp startInd) startInd glitchLimit with
        | some e =>
          unwrapLoop lastSample glitchLimit fuel (e + 1)
            (unwrapRange wp startInd e (if jumpDiff lastSample wp startInd > 0 then -360 else 360))
        | none =>
          if jumpDiff lastSample wp startInd > 0 ∧
              min (startInd + glitchLimit + 1) wp.length = wp.length then
            unwrapLoop lastSample glitchLimit fuel (wp.length + 1)
              (unwrapRange wp startInd wp.length
                (if jumpDiff lastSample wp startInd > 0 then -360 else 360))
          else
            unwrapLoop lastSample glitchLimit fuel (startInd + 1) wp
      else
        unwrapLoop lastSample glitchLimit fuel (startInd + 1) wp
    else wp

/-- Phase unwrapping of a block against the previous block's last emitted
sample (from `PhaseCalculator::unwrapBuffer`, lines 357–389). -/
def unwrapBuffer (lastSample : ℚ) (glitchLimit : ℕ) (wp : List ℚ) : List ℚ :=
  unwrapLoop lastSample glitchLimit wp.length 0 wp

theorem unwrapRange_length (wp : List ℚ) (s e : ℕ) (d : ℚ) :
    (unwrapRange wp s e d).length = wp.length :=
  mapIdxFrom_length _ 0 wp

theorem unwrapRange_getElemBang (wp : List ℚ) (s e : ℕ) (d : ℚ) (i : ℕ) (hi : i < wp.length) :
    (unwrapRange wp s e d)[i]! = if s ≤ i ∧ i < e then wp[i]! + d else wp[i]! := by
  simpa using mapIdxFrom_getElemBang (fun i x => if s ≤ i ∧ i < e then x + d else x) 0 wp i hi

theorem unwrapLoop_length (lastSample : ℚ) (glitchLimit : ℕ) (fuel s : ℕ) (wp : List ℚ) :
    (unwrapLoop lastSample glitchLimit fuel s wp).length = wp.length := by
  induction fuel generalizing s wp with
  | zero => rfl
  | succ f ih =>
    rw [unwrapLoop]
    split
    · split
      · split
        · rw [ih, unwrapRange_length]
        · split
          · rw [ih, unwrapRange_length]
          · rw [ih]
      · rw [ih]
    · rfl

/-- The unwrap loop never modifies entries strictly below its start index. -/
theorem unwrapLoop_preserve (lastSample : ℚ) (glitchLimit : ℕ) (fuel s : ℕ) (wp : List ℚ)
    (j : ℕ) (hj : j < s) :
    (unwrapLoop lastSample glitchLimit fuel s wp)[j]! = wp[j]! := by
  induction fuel generalizing s wp with
  | zero => rfl
  | succ f ih =>
    rw [unwrapLoop]
    split
    · rename_i hlt
      have hjlen : j < wp.length := by omega
      split
      · split
        · rename_i e heq
          have hmem := List.mem_of_find?_eq_some heq
          have hrange := List.mem_range'_1.mp hmem
          have hje : j < e + 1 := by omega
          rw [ih (e + 1) _ hje]
          rw [unwrapRange_getElemBang _ _ _ _ j hjlen]
          have : ¬ (s ≤ j ∧ j < e) := by omega
          simp [this]
        · split
          · rw [ih (wp.length + 1) _ (by omega)]
            rw [unwrapRange_getElemBang _ _ _ _ j hjlen]
            have : ¬ (s ≤ j ∧ j < wp.length) := by omega
            simp [this]
          · exact ih (s + 1) wp (by omega)
      · exact ih (s + 1) wp (by omega)
    · rfl

/-- With `glitchLimit = 0` the unwrap loop is the identity: the search range
is empty and the end-of-buffer branch is unreachable (inside the loop
`startInd + 1 < wp.length`). -/
theorem unwrapLoop_zero (lastSample : ℚ) (fuel s : ℕ) (wp : List ℚ) :
    unwrapLoop lastSample 0 fuel s wp = wp := by
  induction fuel generalizing s with
  | zero => rfl
  | succ f ih =>
    rw [unwrapLoop]
    split
    · rename_i hlt
      have hfind : findOppJump wp (jumpDiff lastSample wp s) s 0 = none := by
        unfold findOppJump
        have hempty : min (s + 0 + 1) wp.length - (s + 1) = 0 := by omega
        rw [hempty]
        rfl
      split
      · rw [hfind]
        have hne : ¬ (jumpDiff lastSample wp s > 0 ∧
            min (s + 0 + 1) wp.length = wp.length) := by
          rintro ⟨-, habs⟩
          omega
        simp only [hne, if_false]
        exact ih (s + 1)
      · exact ih (s + 1)
    · rfl

/-!
## smoothBuffer

Translated from `PhaseCalculator::smoothBuffer` (`PhaseCalculator.cpp` lines
391–423).  The search loop breaks at the first index whose sample exceeds
`lastSample`, either directly or — when a `> 180` upward jump occurred and the
adjusted value exceeds `lastSample` — after adding 360 to that sample; the
adjustment is applied to the buffer exactly when the loop broke through the
second condition.
-/

/-- Break condition of the search loop in `smoothBuffer` at index `i`. -/
def smoothBreakAt (lastSample : ℚ) (wp : List ℚ) (i : ℕ) : Bool :=
  decide (wp[i]! > lastSample) ||
    (decide (wp[i]! - wp[i - 1]! > 180) && decide (wp[i]! + 360 > lastSample))

/-- The search loop of `smoothBuffer`: the first index in `[1, maxSL]` at
which the signal exceeds `lastSample` again (directly or after a +360
wraparound adjustment). -/
def smoothCrossing (lastSample : ℚ) (wp : List ℚ) (maxSL : ℕ) : Option ℕ :=
  (List.range' 1 maxSL).find? (fun i => smoothBreakAt lastSample wp i)

/-- Start-of-buffer smoothing against the previous block's last emitted sample
(from `PhaseCalculator::smoothBuffer`, lines 391–423). -/
def smoothBuffer (lastSample : ℚ) (glitchLimit : ℕ) (wp : List ℚ) : List ℚ :=
  if wp[0]! - lastSample < 0 ∧ wp[0]! - lastSample > -180 then
    match smoothCrossing lastSample wp (min glitchLimit (wp.length - 1)) with
    | none => wp
    | some e =>
      let wp1 := if wp[e]! > lastSample then wp
        else mapIdxFrom (fun i x => if i = e then x + 360 else x) 0 wp
      mapIdxFrom (fun i x =>
        if i < e then lastSample + (i + 1) * ((wp1[e]! - lastSample) / (e + 1)) else x) 0 wp1
  else wp

theorem smoothBuffer_zero (lastSample : ℚ) (wp : List ℚ) :
    smoothBuffer lastSample 0 wp = wp := by
  rw [smoothBuffer]
  have h : smoothCrossing lastSample wp (min 0 (wp.length - 1)) = none := by
    rw [Nat.min_comm, Nat.min_zero]
    rfl
  rw [h]
  split <;> rfl

/-- C3: with `glitchLimit = 0` both `unwrapBuffer` and `smoothBuffer` leave
every sample of any block unchanged (in the unwrap loop the search range is
empty and the end-of-buffer always-unwrap branch cannot fire, and the
smoothing search — including its +360 wraparound adjustment — never runs), so
the emitted output of the two stages composed equals the raw phase stream
exactly. -/
theorem glitchLimit_zero_identity (lastSample : ℚ) (wp : List ℚ) :
    unwrapBuffer lastSample 0 wp = wp ∧
    smoothBuffer lastSample 0 wp = wp ∧
    smoothBuffer lastSample 0 (unwrapBuffer lastSample 0 wp) = wp := by
  have hu : unwrapBuffer lastSample 0 wp = wp := unwrapLoop_zero lastSample wp.length 0 wp
  refine ⟨hu, smoothBuffer_zero lastSample wp, ?_⟩
  rw [hu]
  exact smoothBuffer_zero lastSample wp

/-!
## The C1 scenario

Block N ends with emitted phase 170; block N+1 starts with raw phase −170.
The raw difference is −340, a big jump in the *negative* direction, while the
always-unwrap rule at the end of the buffer (line 377 of the source) requires
`diff > 0`; so when no opposite jump is found the first sample stays −170
rather than becoming 190.
-/

/-- When the loop guard `startInd < nSamples − 1` fails, the unwrap loop
returns the buffer unchanged. -/
theorem unwrapLoop_stop (lastSample : ℚ) (glitchLimit fuel s : ℕ) (wp : List ℚ)
    (h : ¬ s < wp.length - 1) : unwrapLoop lastSample glitchLimit fuel s wp = wp := by
  cases fuel with
  | zero => rfl
  | succ f => rw [unwrapLoop, if_neg h]

/-- Core lemma for the C1 scenario: a first sample more than 180 *below* the
previous block's last emitted sample, with no opposite (`> 180` upward) jump
within `glitchLimit` samples, is left unchanged by `unwrapBuffer`: the
always-unwrap branch requires `diff > 0`. -/
theorem unwrapBuffer_downneg_head (lastSample : ℚ) (glitchLimit : ℕ)
    (wp : List ℚ) (hjump : wp[0]! - lastSample < -180)
    (hnoopp : ∀ j, 1 ≤ j → j ≤ glitchLimit → j < wp.length →
      ¬ (wp[j]! - wp[j - 1]! > 180)) :
    (unwrapBuffer lastSample glitchLimit wp)[0]! = wp[0]! := by
  rw [unwrapBuffer]
  rcases Nat.lt_or_ge wp.length 2 with hlen | hlen
  · rw [unwrapLoop_stop lastSample glitchLimit wp.length 0 wp (by omega)]
  · obtain ⟨f, hf⟩ : ∃ f, wp.length = f + 1 := ⟨wp.length - 1, by omega⟩
    rw [hf, unwrapLoop]
    have h0 : 0 < wp.length - 1 := by omega
    rw [if_pos h0]
    have hdiff : jumpDiff lastSample wp 0 = wp[0]! - lastSample := by
      simp [jumpDiff]
    have habs : |jumpDiff lastSample wp 0| > 180 := by
      rw [hdiff, abs_of_neg (by linarith)]
      linarith
    rw [if_pos habs]
    have hfind : findOppJump wp (jumpDiff lastSample wp 0) 0 glitchLimit = none := by
      unfold findOppJump
      rw [List.find?_eq_none]
      intro j hjmem
      have hjr := List.mem_range'_1.mp hjmem
      have hj1 : 1 ≤ j := hjr.1
      have hjub : j < min (0 + glitchLimit + 1) wp.length := by omega
      have hjg : j ≤ glitchLimit := by omega
      have hjl : j < wp.length := by omega
      show ¬ oppJumpAt wp (jumpDiff lastSample wp 0) j = true
      unfold oppJumpAt
      rw [Bool.and_eq_true, decide_eq_true_eq, bne_iff_ne, ne_eq, decide_eq_decide]
      rintro ⟨habs2, hne⟩
      have hdneg : ¬ (jumpDiff lastSample wp 0 > 0) := by
        rw [hdiff]; linarith
      have hd2pos : wp[j]! - wp[j - 1]! > 0 := by
        by_contra hc
        exact hne (iff_of_false hdneg hc)
      have h180 : wp[j]! - wp[j - 1]! > 180 := by
        rwa [abs_of_pos hd2pos] at habs2
      exact hnoopp j hj1 hjg hjl h180
    rw [hfind]
    have hnot : ¬ (jumpDiff lastSample wp 0 > 0 ∧
        min (0 + glitchLimit + 1) wp.length = wp.length) := by
      rintro ⟨hpos, -⟩
      rw [hdiff] at hpos
      linarith
    rw [if_neg hnot]
    exact unwrapLoop_preserve lastSample glitchLimit f 1 wp 0 Nat.one_pos

/-- C1 counterexample: in the spec's scenario (previous last sample 170°,
first raw phase −170°, a raw difference of −340°, `glitchLimit = 1 ≥ 1`, and
no opposite jump of magnitude > 180 within the limit), `unwrapBuffer` leaves
the first value at −170 — it is not converted to 190 as the claim states. -/
theorem unwrapBuffer_c1_counterexample :
    ([(-170 : ℚ), -160] : List ℚ)[0]! - 170 = -340 ∧
    (1 : ℕ) ≥ 1 ∧
    ¬ (([(-170 : ℚ), -160] : List ℚ)[1]! - ([(-170 : ℚ), -160] : List ℚ)[0]! > 180) ∧
    (unwrapBuffer 170 1 [(-170 : ℚ), -160])[0]! = -170 ∧
    (unwrapBuffer 170 1 [(-170 : ℚ), -160])[0]! ≠ 190 := by
  have hnoopp : ∀ j : ℕ, 1 ≤ j → j ≤ 1 → j < ([(-170 : ℚ), -160] : List ℚ).length →
      ¬ (([(-170 : ℚ), -160] : List ℚ)[j]! - ([(-170 : ℚ), -160] : List ℚ)[j - 1]! > 180) := by
    intro j h1 h2 h3
    have hj : j = 1 := by omega
    subst hj
    norm_num
  have hhead : (unwrapBuffer 170 1 [(-170 : ℚ), -160])[0]! = -170 := by
    rw [unwrapBuffer_downneg_head 170 1 [(-170 : ℚ), -160] (by norm_num) hnoopp]
    norm_num
  refine ⟨by norm_num, le_refl 1, by norm_num, hhead, ?_⟩
  rw [hhead]
  norm_num

/-- C1, amended: when the first sample of a block sits more than 180 below the
previous block's last emitted sample (the raw −340° difference of the
170° → −170° wrap scenario) and no opposite jump of magnitude > 180 occurs
within `glitchLimit` samples, `unwrapBuffer` leaves the first value unchanged
(at −170° in the scenario): the always-unwrap rule at the buffer edge applies
only to raw *upward* jumps (`diff > 0`). -/
theorem unwrapBuffer_downward_jump_unchanged (lastSample : ℚ) (glitchLimit : ℕ)
    (wp : List ℚ) (hjump : wp[0]! - lastSample < -180)
    (hnoopp : ∀ j, 1 ≤ j → j ≤ glitchLimit → j < wp.length →
      ¬ (wp[j]! - wp[j - 1]! > 180)) :
    (unwrapBuffer lastSample glitchLimit wp)[0]! = wp[0]! :=
  unwrapBuffer_downneg_head lastSample glitchLimit wp hjump hnoopp

/-- Witness for `unwrapBuffer_downward_jump_unchanged` at the concrete C1
scenario block, with a previous last sample of 170 and glitch limit 1. -/
theorem unwrapBuffer_downward_jump_unchanged_witness :
    ([(-170 : ℚ), -165] : List ℚ)[0]! - 170 < -180 ∧
    (unwrapBuffer 170 1 [(-170 : ℚ), -165])[0]! = ([(-170 : ℚ), -165] : List ℚ)[0]! := by
  constructor
  · norm_num
  · apply unwrapBuffer_downward_jump_unchanged 170 1 [(-170 : ℚ), -165]
    · norm_num
    · intro j h1 h2 h3
      have hj : j = 1 := by omega
      subst hj
      norm_num

/-!
## The smoothing contract (C7)
-/

theorem smoothBuffer_eq_of_crossing (lastSample : ℚ) (glitchLimit : ℕ) (wp : List ℚ)
    (e : ℕ) (hcond : wp[0]! - lastSample < 0 ∧ wp[0]! - lastSample > -180)
    (hsome : smoothCrossing lastSample wp (min glitchLimit (wp.length - 1)) = some e) :
    smoothBuffer lastSample glitchLimit wp =
      (fun wp1 => mapIdxFrom (fun i x =>
        if i < e then lastSample + (i + 1 : ℚ) * ((wp1[e]! - lastSample) / (e + 1 : ℚ)) else x) 0 wp1)
      (if wp[e]! > lastSample then wp
        else mapIdxFrom (fun i x => if i = e then x + 360 else x) 0 wp) := by
  rw [smoothBuffer, if_pos hcond, hsome]

/-- C7: whenever a block starts less than 180° below the previous block's last
emitted sample, `smoothBuffer` finds the first offset `e` within
`min glitchLimit (n − 1)` at which the signal exceeds that sample (adding 360
to sample `e` first when a > 180° upward jump occurred and the adjusted value
exceeds it), replaces samples `[0, e)` with equally spaced points on the line
from the last sample to `phase[e]`, and leaves the rest (except the possible
+360 at `e`) unchanged; when no such crossing exists, no sample is modified. -/
theorem smoothBuffer_spec (lastSample : ℚ) (glitchLimit : ℕ) (wp : List ℚ)
    (hd1 : wp[0]! - lastSample < 0) (hd2 : wp[0]! - lastSample > -180) :
    (smoothCrossing lastSample wp (min glitchLimit (wp.length - 1)) = none →
      smoothBuffer lastSample glitchLimit wp = wp) ∧
    (∀ e, smoothCrossing lastSample wp (min glitchLimit (wp.length - 1)) = some e →
      1 ≤ e ∧ e ≤ min glitchLimit (wp.length - 1) ∧
      (∀ i, i < e → (smoothBuffer lastSample glitchLimit wp)[i]! =
        lastSample + (i + 1 : ℚ) *
          (((if wp[e]! > lastSample then wp[e]! else wp[e]! + 360) - lastSample) / (e + 1 : ℚ))) ∧
      ((smoothBuffer lastSample glitchLimit wp)[e]! =
        (if wp[e]! > lastSample then wp[e]! else wp[e]! + 360)) ∧
      (∀ j, e < j → j < wp.length → (smoothBuffer lastSample glitchLimit wp)[j]! = wp[j]!)) := by
  constructor
  · intro hnone
    rw [smoothBuffer, if_pos ⟨hd1, hd2⟩, hnone]
  · intro e hsome
    have hmem := List.mem_of_find?_eq_some hsome
    have hrange := List.mem_range'_1.mp hmem
    have he1 : 1 ≤ e := hrange.1
    have heub : e ≤ min glitchLimit (wp.length - 1) := by omega
    have helen : e < wp.length := by omega
    rw [smoothBuffer_eq_of_crossing lastSample glitchLimit wp e ⟨hd1, hd2⟩ hsome]
    refine ⟨he1, heub, ?_, ?_, ?_⟩
    · intro i hi
      have hilen : i < wp.length := by omega
      by_cases hgt : wp[e]! > lastSample
      · rw [if_pos hgt]
        simp only
        rw [mapIdxFrom_getElemBang _ 0 wp i hilen]
        simp only [Nat.zero_add, if_pos hi, if_pos hgt]
      · rw [if_neg hgt]
        simp only
        have hlen1 : (mapIdxFrom (fun i x => if i = e then x + 360 else x) 0 wp).length =
            wp.length := mapIdxFrom_length _ 0 wp
        rw [mapIdxFrom_getElemBang _ 0 _ i (by rw [hlen1]; omega)]
        have hwp1e : (mapIdxFrom (fun i x => if i = e then x + 360 else x) 0 wp)[e]! =
            wp[e]! + 360 := by
          rw [mapIdxFrom_getElemBang _ 0 wp e helen]
          simp
        rw [hwp1e]
        simp only [Nat.zero_add, if_pos hi, if_neg hgt]
    · by_cases hgt : wp[e]! > lastSample
      · rw [if_pos hgt]
        simp only
        rw [mapIdxFrom_getElemBang _ 0 wp e helen]
        simp only [Nat.zero_add, if_neg (lt_irrefl e), if_pos hgt]
      · rw [if_neg hgt]
        simp only
        have hlen1 : (mapIdxFrom (fun i x => if i = e then x + 360 else x) 0 wp).length =
            wp.length := mapIdxFrom_length _ 0 wp
        rw [mapIdxFrom_getElemBang _ 0 _ e (by rw [hlen1]; omega)]
        simp only [Nat.zero_add, if_neg (lt_irrefl e)]
        rw [mapIdxFrom_getElemBang _ 0 wp e helen]
        simp [hgt]
    · intro j hj hjlen
      by_cases hgt : wp[e]! > lastSample
      · rw [if_pos hgt]
        simp only
        rw [mapIdxFrom_getElemBang _ 0 wp j hjlen]
        simp only [Nat.zero_add, if_neg (by omega : ¬ j < e)]
      · rw [if_neg hgt]
        simp only
        have hlen1 : (mapIdxFrom (fun i x => if i = e then x + 360 else x) 0 wp).length =
            wp.length := mapIdxFrom_length _ 0 wp
        rw [mapIdxFrom_getElemBang _ 0 _ j (by rw [hlen1]; omega)]
        simp only [Nat.zero_add, if_neg (by omega : ¬ j < e)]
        rw [mapIdxFrom_getElemBang _ 0 wp j hjlen]
        simp only [Nat.zero_add, if_neg (by omega : ¬ j = e)]

/-- Witness for `smoothBuffer_spec`: previous last sample 10, block `[9, 11]`,
glitch limit 5; the crossing is at offset 1 and sample 0 is interpolated to
`10 + 1·((11 − 10)/2) = 21/2`. -/
theorem smoothBuffer_spec_witness :
    ([((9 : ℚ)), 11] : List ℚ)[0]! - 10 < 0 ∧
    ([((9 : ℚ)), 11] : List ℚ)[0]! - 10 > -180 ∧
    smoothCrossing 10 [((9 : ℚ)), 11] (min 5 (([((9 : ℚ)), 11] : List ℚ).length - 1)) = some 1 ∧
    (smoothBuffer 10 5 [((9 : ℚ)), 11])[0]! =
      10 + ((0 : ℕ) + 1 : ℚ) * (((if ([((9 : ℚ)), 11] : List ℚ)[1]! > 10
        then ([((9 : ℚ)), 11] : List ℚ)[1]! else ([((9 : ℚ)), 11] : List ℚ)[1]! + 360) - 10) / ((1 : ℕ) + 1 : ℚ)) := by
  have hd1 : ([((9 : ℚ)), 11] : List ℚ)[0]! - 10 < 0 := by norm_num
  have hd2 : ([((9 : ℚ)), 11] : List ℚ)[0]! - 10 > -180 := by norm_num
  have hcross : smoothCrossing 10 [((9 : ℚ)), 11]
      (min 5 (([((9 : ℚ)), 11] : List ℚ).length - 1)) = some 1 := by
    show (List.range' 1 (min 5 1)).find? (fun i => smoothBreakAt 10 [((9 : ℚ)), 11] i) = some 1
    have h1 : smoothBreakAt 10 [((9 : ℚ)), 11] 1 = true := by
      unfold smoothBreakAt
      rw [Bool.or_eq_true, decide_eq_true_eq]
      left
      norm_num
    simp [List.range', List.find?, h1]
  refine ⟨hd1, hd2, hcross, ?_⟩
  exact ((smoothBuffer_spec 10 5 [((9 : ℚ)), 11] hd1 hd2).2 1 hcross).2.2.1 0 Nat.one_pos

/-!
## The per-block, per-channel `process` model

Translated from `PhaseCalculator::process` (`PhaseCalculator.cpp` lines
202–355) for a single channel, together with the background AR-thread sweep
(`run`, lines 543–604) and `disable` (lines 462–482).  The FFTW plans,
`std::arg`, the `ARMaxEntropy` Burg estimator and the DSP bandpass filter are
external primitives and appear as parameters (the filter acts in place on a
block, hence preserves its length).
-/

/-- Channel processing states (`enum ChannelState` in the header, line 107). -/
inductive ChannelState
  | NOT_FULL
  | FULL_NO_AR
  | FULL_AR
deriving DecidableEq

/-- The channel types consulted by the ADC/AUX guard of `process`. -/
inductive ChannelType
  | HEADSTAGE_CHANNEL
  | ADC_CHANNEL
  | AUX_CHANNEL
deriving DecidableEq

/-- Engine configuration and the per-channel settings consulted by `process`
for the modelled channel. -/
structure Config where
  historyLength : ℕ
  numFuture : ℕ
  glitchLimit : ℕ
  processADC : Bool
  shouldProcessChannel : Bool
  chanType : ChannelType

/-- External numeric primitives: FFTW forward/backward plans, the `std::arg`
phase extraction in degrees, the `ARMaxEntropy` Burg fit, and the per-block
action of the stateful bandpass filter (in place, so length preserving). -/
structure Backends where
  fftFwd : List ℚ → List (ℚ × ℚ)
  fftBwd : List (ℚ × ℚ) → List (ℚ × ℚ)
  argDeg : ℚ × ℚ → ℚ
  arFit : List ℚ → List ℚ
  filter : List ℚ → List ℚ
  filter_length : ∀ l, (filter l).length = l.length

/-- Per-channel mutable state of the engine. -/
structure ChanData where
  chanState : ChannelState
  fifo : List ℚ
  sharedDataBuffer : List ℚ
  arParams : List ℚ
  lastSample : ℚ

/-- Result of processing one block on one channel. -/
structure ProcResult where
  buffer : List ℚ
  chan : ChanData
  warned : Bool
  haveSentWarning : Bool

/-- The window transformed each block: the history snapshot followed by
`numFuture` AR-predicted samples (lines 304–317). -/
def dataToProcess (cfg : Config) (sdb : List ℚ) (params : List ℚ) : List ℚ :=
  sdb ++ arPredict sdb cfg.numFuture params

/-- The analytic signal of the window: forward transform, Hilbert
manipulation, backward transform (lines 327–330). -/
def analyticSignal (bk : Backends) (data : List ℚ) : List (ℚ × ℚ) :=
  bk.fftBwd (hilbertManip (bk.fftFwd data))

/-- The filtered block with the overflow prefix cleared (lines 233–252): when
the block is longer than `historyLength`, the first
`nSamples − historyLength` samples are zeroed. -/
def filteredCleared (cfg : Config) (bk : Backends) (buffer : List ℚ) : List ℚ :=
  let startIndex := buffer.length - cfg.historyLength
  if startIndex ≠ 0 then
    mapIdxFrom (fun i x => if i < startIndex then 0 else x) 0 (bk.filter buffer)
  else bk.filter buffer

/-- The logical contents of the history fifo after the block is enqueued
(lines 254–267): the fifo first evicts `max 0 (nSamplesToProcess − freeSpace)`
oldest entries, then appends the newest `nSamplesToProcess` filtered samples. -/
def fifoAfter (cfg : Config) (bk : Backends) (c : ChanData) (buffer : List ℚ) : List ℚ :=
  let nSamplesToProcess := min buffer.length cfg.historyLength
  let nSamplesToClear : ℤ :=
    (nSamplesToProcess : ℤ) - ((cfg.historyLength - c.fifo.length : ℕ) : ℤ)
  c.fifo.drop nSamplesToClear.toNat ++
    (bk.filter buffer).drop (buffer.length - cfg.historyLength)

/-- Whether the fifo, currently not full, becomes full with this block
(line 261). -/
def willBecomeFull (cfg : Config) (c : ChanData) (n : ℕ) : Bool :=
  decide (c.chanState = ChannelState.NOT_FULL) &&
    decide (0 ≤ (min n cfg.historyLength : ℤ) - ((cfg.historyLength - c.fifo.length : ℕ) : ℤ))

/-- The raw phase buffer written in the `FULL_AR` branch before unwrapping and
smoothing (lines 332–340): each newly processed sample at buffer position
`startIndex + i` receives the argument (in degrees) of the analytic signal at
window offset `historyLength − nSamplesToProcess + i`. -/
def rawPhaseBuffer (cfg : Config) (bk : Backends) (sdb params cleared : List ℚ)
    (startIndex nSamplesToProcess : ℕ) : List ℚ :=
  mapIdxFrom (fun i x =>
    if startIndex ≤ i then
      bk.argDeg (analyticSignal bk (dataToProcess cfg sdb params))[cfg.historyLength - nSamplesToProcess + (i - startIndex)]!
    else x) 0 cleared

/-- Whether this block publishes the fifo contents to the shared snapshot
(line 271): the fifo is already full, or becomes full with this block. -/
def doShare (cfg : Config) (c : ChanData) (n : ℕ) : Bool :=
  !decide (c.chanState = ChannelState.NOT_FULL) || willBecomeFull cfg c n

/-- The channel state after the snapshot-publication step of `process`
(lines 296–298): a `NOT_FULL` channel whose fifo just filled is promoted to
`FULL_NO_AR`; every other state is kept. -/
def nextChanState (cfg : Config) (c : ChanData) (n : ℕ) : ChannelState :=
  if doShare cfg c n && decide (c.chanState = ChannelState.NOT_FULL)
    then ChannelState.FULL_NO_AR else c.chanState

/-- The shared snapshot buffer after the block (lines 269–294): overwritten
with the full fifo contents when publication happens. -/
def sharedAfter (cfg : Config) (bk : Backends) (c : ChanData) (buffer : List ℚ) : List ℚ :=
  if doShare cfg c buffer.length then fifoAfter cfg bk c buffer else c.sharedDataBuffer

/-- One block of `PhaseCalculator::process` (lines 202–355) for one channel:
guard checks, bandpass filtering, overflow truncation with one-time warning,
fifo enqueueing, snapshot publication with the `NOT_FULL → FULL_NO_AR`
promotion, and state-dependent output (computed phase in `FULL_AR`, zeros
otherwise), finally recording the last emitted sample. -/
def process (cfg : Config) (bk : Backends) (haveSentWarning : Bool)
    (c : ChanData) (buffer : List ℚ) : ProcResult :=
  if cfg.shouldProcessChannel = false then ⟨buffer, c, false, haveSentWarning⟩
  else if cfg.processADC = false ∧
      (cfg.chanType = ChannelType.ADC_CHANNEL ∨ cfg.chanType = ChannelType.AUX_CHANNEL) then
    ⟨buffer, c, false, haveSentWarning⟩
  else if buffer.length = 0 then ⟨buffer, c, false, haveSentWarning⟩
  else
    let nSamples := buffer.length
    let startIndex := nSamples - cfg.historyLength
    let nSamplesToProcess := nSamples - startIndex
    let buf1 := filteredCleared cfg bk buffer
    let warned := decide (startIndex ≠ 0) && !haveSentWarning
    let hsw' := haveSentWarning || decide (startIndex ≠ 0)
    let output :=
      if nextChanState cfg c nSamples = ChannelState.FULL_AR then
        smoothBuffer c.lastSample cfg.glitchLimit (unwrapBuffer c.lastSample cfg.glitchLimit
          (rawPhaseBuffer cfg bk (sharedAfter cfg bk c buffer) c.arParams buf1
            startIndex nSamplesToProcess))
      else
        mapIdxFrom (fun i x => if startIndex ≤ i then 0 else x) 0 buf1
    ⟨output, ⟨nextChanState cfg c nSamples, fifoAfter cfg bk c buffer,
      sharedAfter cfg bk c buffer, c.arParams, output[nSamples - 1]!⟩, warned, hsw'⟩

/-- One sweep of the AR thread (`PhaseCalculator::run`, lines 543–604) over
the modelled channel: `NOT_FULL` channels are skipped; otherwise the snapshot
is fitted and the channel is promoted to `FULL_AR`. -/
def runFitChannel (bk : Backends) (c : ChanData) : ChanData :=
  if c.chanState = ChannelState.NOT_FULL then c
  else { c with arParams := bk.arFit c.sharedDataBuffer,
                chanState := ChannelState.FULL_AR }

/-- The engine state shared between the two threads for the modelled channel. -/
structure EngineState where
  chan : ChanData
  haveSentWarning : Bool

/-- The three kinds of events that touch a channel's state: a processed block
(real-time thread), an AR-thread sweep, and `disable`. -/
inductive PCEvent
  | block (samples : List ℚ)
  | arFit
  | disable

/-- One event step of the engine.  `disable` (lines 462–482) resets the
channel state, clears the fifo, zeroes the last sample and resets the warning
flag. -/
def stepEvent (cfg : Config) (bk : Backends) (s : EngineState) : PCEvent → EngineState
  | PCEvent.block samples =>
    let r := process cfg bk s.haveSentWarning s.chan samples
    ⟨r.chan, r.haveSentWarning⟩
  | PCEvent.arFit => ⟨runFitChannel bk s.chan, s.haveSentWarning⟩
  | PCEvent.disable =>
    ⟨{ s.chan with chanState := ChannelState.NOT_FULL, fifo := [], lastSample := 0 },
      false⟩

/-- The state right after `initialize` (lines 633–703): `NOT_FULL`, empty
fifo, zero last sample, zeroed AR parameters, no warning sent. -/
def initState : EngineState :=
  ⟨⟨ChannelState.NOT_FULL, [], [], List.replicate AR_ORDER 0, 0⟩, false⟩

/-- The engine state after a sequence of events from the initial state. -/
def runEvents (cfg : Config) (bk : Backends) (evs : List PCEvent) : EngineState :=
  evs.foldl (stepEvent cfg bk) initState

/-- The channel states visited along a sequence of events (initial state
included). -/
def statesOf (cfg : Config) (bk : Backends) (evs : List PCEvent) : List ChannelState :=
  (evs.scanl (stepEvent cfg bk) initState).map (fun s => s.chan.chanState)

theorem filteredCleared_length (cfg : Config) (bk : Backends) (buffer : List ℚ) :
    (filteredCleared cfg bk buffer).length = buffer.length := by
  unfold filteredCleared
  dsimp only
  split
  · rw [mapIdxFrom_length, bk.filter_length]
  · exact bk.filter_length buffer

/-- A trivial backend (identity filter, empty transforms, zero phase) used to
instantiate witnesses. -/
def trivialBackends : Backends where
  fftFwd := fun _ => []
  fftBwd := fun _ => []
  argDeg := fun _ => 0
  arFit := fun l => l
  filter := fun l => l
  filter_length := fun _ => rfl

/-- C10: a channel whose per-channel enable flag is off, or of ADC/AUX type
while `processADC` is off, or whose block carries zero samples, is passed
through: the buffer is returned exactly as received and the channel state,
fifo, snapshot, AR parameters and last sample are all left unmodified, with no
warning raised. -/
theorem process_passthrough (cfg : Config) (bk : Backends) (hsw : Bool)
    (c : ChanData) (buffer : List ℚ)
    (h : cfg.shouldProcessChannel = false ∨
      (cfg.processADC = false ∧
        (cfg.chanType = ChannelType.ADC_CHANNEL ∨ cfg.chanType = ChannelType.AUX_CHANNEL)) ∨
      buffer.length = 0) :
    process cfg bk hsw c buffer = ⟨buffer, c, false, hsw⟩ := by
  unfold process
  by_cases h1 : cfg.shouldProcessChannel = false
  · rw [if_pos h1]
  · rw [if_neg h1]
    by_cases h2 : cfg.processADC = false ∧
        (cfg.chanType = ChannelType.ADC_CHANNEL ∨ cfg.chanType = ChannelType.AUX_CHANNEL)
    · rw [if_pos h2]
    · rw [if_neg h2]
      by_cases h3 : buffer.length = 0
      · rw [if_pos h3]
      · rcases h with h | h | h
        · exact absurd h h1
        · exact absurd h h2
        · exact absurd h h3

/-- Witness for `process_passthrough`: a disabled channel is passed through. -/
theorem process_passthrough_witness :
    (⟨4, 0, 0, true, false, ChannelType.HEADSTAGE_CHANNEL⟩ : Config).shouldProcessChannel = false ∧
    process ⟨4, 0, 0, true, false, ChannelType.HEADSTAGE_CHANNEL⟩ trivialBackends false
        ⟨ChannelState.NOT_FULL, [], [], [], 0⟩ [1, 2] =
      ⟨[1, 2], ⟨ChannelState.NOT_FULL, [], [], [], 0⟩, false, false⟩ :=
  ⟨rfl, process_passthrough ⟨4, 0, 0, true, false, ChannelType.HEADSTAGE_CHANNEL⟩
    trivialBackends false ⟨ChannelState.NOT_FULL, [], [], [], 0⟩ [1, 2] (Or.inl rfl)⟩

/-- C9: with `numFuture = 0` the prediction loop performs zero iterations, so
two executions of the processing path that differ only in the AR coefficient
vector emit identical buffers — the output is a function of the window alone. -/
theorem process_numFuture_zero_indep (cfg : Config) (bk : Backends) (hsw : Bool)
    (c : ChanData) (buffer : List ℚ) (p1 p2 : List ℚ)
    (hnf : cfg.numFuture = 0) :
    (process cfg bk hsw { c with arParams := p1 } buffer).buffer =
      (process cfg bk hsw { c with arParams := p2 } buffer).buffer := by
  have hdp : ∀ sdb p, dataToProcess cfg sdb p = sdb := by
    intro sdb p
    simp [dataToProcess, hnf, arPredict]
  unfold process
  by_cases h1 : cfg.shouldProcessChannel = false
  · simp only [if_pos h1]
  · simp only [if_neg h1]
    by_cases h2 : cfg.processADC = false ∧
        (cfg.chanType = ChannelType.ADC_CHANNEL ∨ cfg.chanType = ChannelType.AUX_CHANNEL)
    · simp only [if_pos h2]
    · simp only [if_neg h2]
      by_cases h3 : buffer.length = 0
      · simp only [if_pos h3]
      · simp only [if_neg h3, rawPhaseBuffer, hdp]
        rfl

/-- Witness for `process_numFuture_zero_indep` with two different coefficient
vectors. -/
theorem process_numFuture_zero_indep_witness :
    (⟨2, 0, 0, true, true, ChannelType.HEADSTAGE_CHANNEL⟩ : Config).numFuture = 0 ∧
    (process ⟨2, 0, 0, true, true, ChannelType.HEADSTAGE_CHANNEL⟩ trivialBackends false
        { chanState := ChannelState.FULL_AR, fifo := [1, 2], sharedDataBuffer := [1, 2],
          arParams := List.replicate 20 (5 : ℚ), lastSample := 0 } [3, 4]).buffer =
      (process ⟨2, 0, 0, true, true, ChannelType.HEADSTAGE_CHANNEL⟩ trivialBackends false
        { chanState := ChannelState.FULL_AR, fifo := [1, 2], sharedDataBuffer := [1, 2],
          arParams := List.replicate 20 (-7 : ℚ), lastSample := 0 } [3, 4]).buffer := by
  constructor
  · rfl
  · exact process_numFuture_zero_indep ⟨2, 0, 0, true, true, ChannelType.HEADSTAGE_CHANNEL⟩
      trivialBackends false
      { chanState := ChannelState.FULL_AR, fifo := [1, 2], sharedDataBuffer := [1, 2],
        arParams := List.replicate 20 (5 : ℚ), lastSample := 0 } [3, 4]
      (List.replicate 20 (5 : ℚ)) (List.replicate 20 (-7 : ℚ)) rfl

theorem nextChanState_of_ne (cfg : Config) (c : ChanData) (n : ℕ)
    (h : ¬ c.chanState = ChannelState.NOT_FULL) : nextChanState cfg c n = c.chanState := by
  unfold nextChanState doShare
  simp [h]

theorem nextChanState_not_FULL_AR (cfg : Config) (c : ChanData) (n : ℕ)
    (h : c.chanState = ChannelState.NOT_FULL ∨ c.chanState = ChannelState.FULL_NO_AR) :
    ¬ nextChanState cfg c n = ChannelState.FULL_AR := by
  unfold nextChanState
  split
  · simp
  · rcases h with h | h <;> simp [h]

theorem sharedAfter_of_FULL_AR (cfg : Config) (bk : Backends) (c : ChanData)
    (buffer : List ℚ) (h : c.chanState = ChannelState.FULL_AR) :
    sharedAfter cfg bk c buffer = fifoAfter cfg bk c buffer := by
  unfold sharedAfter doShare
  simp [h]

/-- C5: for an enabled, processed channel, a block in state `NOT_FULL` or
`FULL_NO_AR` has every newly processed sample replaced by 0, and a block in
state `FULL_AR` has the output equal to the unwrap/smooth stages applied to
the raw phase buffer, whose newly processed samples carry the phase (in
degrees, via the external `arg`) of the analytic signal at the last
`nSamplesToProcess` offsets of the history portion of the window. -/
theorem process_output_policy (cfg : Config) (bk : Backends) (hsw : Bool)
    (c : ChanData) (buffer : List ℚ)
    (hen : cfg.shouldProcessChannel = true)
    (hadc : ¬ (cfg.processADC = false ∧
      (cfg.chanType = ChannelType.ADC_CHANNEL ∨ cfg.chanType = ChannelType.AUX_CHANNEL)))
    (hn : ¬ buffer.length = 0) :
    ((c.chanState = ChannelState.NOT_FULL ∨ c.chanState = ChannelState.FULL_NO_AR) →
      ∀ i, buffer.length - cfg.historyLength ≤ i → i < buffer.length →
        (process cfg bk hsw c buffer).buffer[i]! = 0) ∧
    (c.chanState = ChannelState.FULL_AR →
      ((process cfg bk hsw c buffer).buffer =
        smoothBuffer c.lastSample cfg.glitchLimit (unwrapBuffer c.lastSample cfg.glitchLimit
          (rawPhaseBuffer cfg bk (fifoAfter cfg bk c buffer) c.arParams
            (filteredCleared cfg bk buffer) (buffer.length - cfg.historyLength)
            (buffer.length - (buffer.length - cfg.historyLength))))) ∧
      (∀ i, i < buffer.length - (buffer.length - cfg.historyLength) →
        (rawPhaseBuffer cfg bk (fifoAfter cfg bk c buffer) c.arParams
            (filteredCleared cfg bk buffer) (buffer.length - cfg.historyLength)
            (buffer.length - (buffer.length - cfg.historyLength)))[(buffer.length - cfg.historyLength) + i]! =
          bk.argDeg (analyticSignal bk (dataToProcess cfg (fifoAfter cfg bk c buffer)
            c.arParams))[cfg.historyLength - (buffer.length - (buffer.length - cfg.historyLength)) + i]!)) := by
  have h1 : ¬ cfg.shouldProcessChannel = false := by simp [hen]
  constructor
  · intro hstate i hsi hlt
    unfold process
    simp only [if_neg h1, if_neg hadc, if_neg hn]
    rw [if_neg (nextChanState_not_FULL_AR cfg c buffer.length hstate)]
    rw [mapIdxFrom_getElemBang _ 0 _ i (by rw [filteredCleared_length]; omega)]
    simp [hsi]
  · intro hstate
    constructor
    · unfold process
      simp only [if_neg h1, if_neg hadc, if_neg hn]
      have hns : nextChanState cfg c buffer.length = ChannelState.FULL_AR := by
        rw [nextChanState_of_ne cfg c buffer.length (by rw [hstate]; intro hx; cases hx)]
        exact hstate
      rw [if_pos hns, sharedAfter_of_FULL_AR cfg bk c buffer hstate]
    · intro i hi
      unfold rawPhaseBuffer
      rw [mapIdxFrom_getElemBang _ 0 _ _ (by rw [filteredCleared_length]; omega)]
      simp only [Nat.zero_add]
      rw [if_pos (Nat.le_add_right _ _), Nat.add_sub_cancel_left]

/-- Witness for `process_output_policy`: a `NOT_FULL` channel with a full-size
block emits 0 for its first newly processed sample. -/
theorem process_output_policy_witness :
    (⟨2, 0, 0, true, true, ChannelType.HEADSTAGE_CHANNEL⟩ : Config).shouldProcessChannel = true ∧
    (process ⟨2, 0, 0, true, true, ChannelType.HEADSTAGE_CHANNEL⟩ trivialBackends false
      ⟨ChannelState.NOT_FULL, [], [], [], 0⟩ [5, 6]).buffer[0]! = 0 := by
  constructor
  · rfl
  · exact (process_output_policy ⟨2, 0, 0, true, true, ChannelType.HEADSTAGE_CHANNEL⟩
      trivialBackends false ⟨ChannelState.NOT_FULL, [], [], [], 0⟩ [5, 6]
      rfl (by simp) (by simp)).1 (Or.inl rfl) 0 (by simp) (by simp)

/-- C6: an incoming block longer than `historyLength` is not dropped: the fifo
receives exactly the most recent `historyLength` filtered samples, the first
`nSamples − historyLength` samples of the working buffer are cleared to 0, the
user-visible warning fires exactly when it has not fired before (and the flag
is then set), and only `disable` resets the flag. -/
theorem process_overflow_warning (cfg : Config) (bk : Backends) (hsw : Bool)
    (c : ChanData) (buffer : List ℚ)
    (hen : cfg.shouldProcessChannel = true)
    (hadc : ¬ (cfg.processADC = false ∧
      (cfg.chanType = ChannelType.ADC_CHANNEL ∨ cfg.chanType = ChannelType.AUX_CHANNEL)))
    (hover : cfg.historyLength < buffer.length)
    (hfifo : c.fifo.length ≤ cfg.historyLength) :
    ((process cfg bk hsw c buffer).chan.fifo =
      (bk.filter buffer).drop (buffer.length - cfg.historyLength)) ∧
    ((process cfg bk hsw c buffer).chan.fifo.length = cfg.historyLength) ∧
    (∀ i, i < buffer.length - cfg.historyLength →
      (filteredCleared cfg bk buffer)[i]! = 0) ∧
    ((process cfg bk hsw c buffer).warned = !hsw) ∧
    ((process cfg bk hsw c buffer).haveSentWarning = true) ∧
    (∀ s : EngineState, (stepEvent cfg bk s PCEvent.disable).haveSentWarning = false) := by
  have h1 : ¬ cfg.shouldProcessChannel = false := by simp [hen]
  have hn : ¬ buffer.length = 0 := by omega
  have hfa : fifoAfter cfg bk c buffer =
      (bk.filter buffer).drop (buffer.length - cfg.historyLength) := by
    unfold fifoAfter
    dsimp only
    have hmin : min buffer.length cfg.historyLength = cfg.historyLength := by omega
    rw [hmin]
    have htn : ((cfg.historyLength : ℤ) -
        ((cfg.historyLength - c.fifo.length : ℕ) : ℤ)).toNat = c.fifo.length := by omega
    rw [htn, List.drop_length]
    rfl
  have hne : buffer.length - cfg.historyLength ≠ 0 := by omega
  refine ⟨?_, ?_, ?_, ?_, ?_, ?_⟩
  · unfold process
    simp only [if_neg h1, if_neg hadc, if_neg hn]
    exact hfa
  · unfold process
    simp only [if_neg h1, if_neg hadc, if_neg hn]
    rw [hfa, List.length_drop, bk.filter_length]
    omega
  · intro i hi
    unfold filteredCleared
    dsimp only
    rw [if_pos hne]
    rw [mapIdxFrom_getElemBang _ 0 _ i (by rw [bk.filter_length]; omega)]
    simp [hi]
  · unfold process
    simp only [if_neg h1, if_neg hadc, if_neg hn]
    simp [hne]
  · unfold process
    simp only [if_neg h1, if_neg hadc, if_neg hn]
    simp [hne]
  · intro s
    rfl

/-- Witness for `process_overflow_warning`: history length 2, block of 3
samples; the fifo keeps the last two samples and the warning fires. -/
theorem process_overflow_warning_witness :
    (2 : ℕ) < ([(1 : ℚ), 2, 3] : List ℚ).length ∧
    (process ⟨2, 0, 0, true, true, ChannelType.HEADSTAGE_CHANNEL⟩ trivialBackends false
      ⟨ChannelState.NOT_FULL, [], [], [], 0⟩ [(1 : ℚ), 2, 3]).warned = true := by
  constructor
  · decide
  · have h := (process_overflow_warning ⟨2, 0, 0, true, true, ChannelType.HEADSTAGE_CHANNEL⟩
      trivialBackends false ⟨ChannelState.NOT_FULL, [], [], [], 0⟩ [(1 : ℚ), 2, 3]
      rfl (by simp) (by decide) (by decide)).2.2.2.1
    rw [h]
    rfl

/-!
## The channel state machine (C4)
-/

theorem willBecomeFull_iff (cfg : Config) (c : ChanData) (n : ℕ) :
    willBecomeFull cfg c n = true ↔
      (c.chanState = ChannelState.NOT_FULL ∧
        cfg.historyLength ≤ c.fifo.length + min n cfg.historyLength) := by
  unfold willBecomeFull
  rw [Bool.and_eq_true, decide_eq_true_eq, decide_eq_true_eq]
  constructor
  · rintro ⟨hs, hle⟩
    exact ⟨hs, by omega⟩
  · rintro ⟨hs, hle⟩
    exact ⟨hs, by omega⟩

theorem nextChanState_spec (cfg : Config) (c : ChanData) (n : ℕ) :
    nextChanState cfg c n =
      (if c.chanState = ChannelState.NOT_FULL ∧ willBecomeFull cfg c n = true
        then ChannelState.FULL_NO_AR else c.chanState) := by
  unfold nextChanState doShare
  by_cases hnf : c.chanState = ChannelState.NOT_FULL
  · by_cases hw : willBecomeFull cfg c n = true
    · simp [hnf, hw]
    · rw [Bool.not_eq_true] at hw
      simp [hnf, hw]
  · simp [hnf]

theorem fifoAfter_length (cfg : Config) (bk : Backends) (c : ChanData) (buffer : List ℚ)
    (hfifo : c.fifo.length ≤ cfg.historyLength) :
    (fifoAfter cfg bk c buffer).length =
      min (c.fifo.length + min buffer.length cfg.historyLength) cfg.historyLength := by
  unfold fifoAfter
  dsimp only
  rw [List.length_append, List.length_drop, List.length_drop, bk.filter_length]
  omega

theorem process_chanState (cfg : Config) (bk : Backends) (hsw : Bool) (c : ChanData)
    (buffer : List ℚ) :
    (process cfg bk hsw c buffer).chan.chanState = c.chanState ∨
    ((process cfg bk hsw c buffer).chan.chanState = ChannelState.FULL_NO_AR ∧
      c.chanState = ChannelState.NOT_FULL) := by
  by_cases h1 : cfg.shouldProcessChannel = false
  · left
    simp [process, h1]
  · by_cases h2 : cfg.processADC = false ∧
        (cfg.chanType = ChannelType.ADC_CHANNEL ∨ cfg.chanType = ChannelType.AUX_CHANNEL)
    · left
      simp [process, h1, h2]
    · by_cases h3 : buffer.length = 0
      · left
        simp [process, h1, h2, h3]
      · have hch : (process cfg bk hsw c buffer).chan.chanState =
            nextChanState cfg c buffer.length := by
          simp [process, h1, h2, h3]
        rw [hch, nextChanState_spec]
        split
        · rename_i hcond
          exact Or.inr ⟨rfl, hcond.1⟩
        · exact Or.inl rfl

theorem process_chan_fifo (cfg : Config) (bk : Backends) (hsw : Bool) (c : ChanData)
    (buffer : List ℚ)
    (h1 : ¬ cfg.shouldProcessChannel = false)
    (h2 : ¬ (cfg.processADC = false ∧
      (cfg.chanType = ChannelType.ADC_CHANNEL ∨ cfg.chanType = ChannelType.AUX_CHANNEL)))
    (h3 : ¬ buffer.length = 0) :
    (process cfg bk hsw c buffer).chan.chanState = nextChanState cfg c buffer.length ∧
    (process cfg bk hsw c buffer).chan.fifo = fifoAfter cfg bk c buffer := by
  constructor <;> simp [process, h1, h2, h3]

/-- The fifo-fullness invariant that ties the channel state to the fifo's
logical fill level. -/
def fifoInv (cfg : Config) (s : EngineState) : Prop :=
  (s.chan.chanState = ChannelState.NOT_FULL → s.chan.fifo.length < cfg.historyLength) ∧
  (¬ s.chan.chanState = ChannelState.NOT_FULL → s.chan.fifo.length = cfg.historyLength)

theorem fifoInv_init (cfg : Config) (hl1 : 1 ≤ cfg.historyLength) : fifoInv cfg initState :=
  ⟨fun _ => by simpa [initState] using hl1, fun hx => absurd rfl hx⟩

theorem fifoInv_step (cfg : Config) (bk : Backends) (hl1 : 1 ≤ cfg.historyLength)
    (s : EngineState) (e : PCEvent) (h : fifoInv cfg s) :
    fifoInv cfg (stepEvent cfg bk s e) := by
  cases e with
  | disable =>
    exact ⟨fun _ => by simpa [stepEvent] using hl1, fun hx => absurd rfl hx⟩
  | arFit =>
    by_cases hnf : s.chan.chanState = ChannelState.NOT_FULL
    · constructor
      · intro _
        simpa [stepEvent, runFitChannel, hnf] using h.1 hnf
      · intro hx
        simp [stepEvent, runFitChannel, hnf] at hx
    · constructor
      · intro hx
        simp [stepEvent, runFitChannel, hnf] at hx
      · intro _
        simpa [stepEvent, runFitChannel, hnf] using h.2 hnf
  | block samples =>
    by_cases h1 : cfg.shouldProcessChannel = false
    · have hs : stepEvent cfg bk s (PCEvent.block samples) = s := by
        simp [stepEvent, process, h1]
      rw [hs]
      exact h
    · by_cases h2 : cfg.processADC = false ∧
          (cfg.chanType = ChannelType.ADC_CHANNEL ∨ cfg.chanType = ChannelType.AUX_CHANNEL)
      · have hs : stepEvent cfg bk s (PCEvent.block samples) = s := by
          simp [stepEvent, process, h1, h2]
        rw [hs]
        exact h
      · by_cases h3 : samples.length = 0
        · have hs : stepEvent cfg bk s (PCEvent.block samples) = s := by
            simp [stepEvent, process, h1, h2, h3]
          rw [hs]
          exact h
        · have hfifoLe : s.chan.fifo.length ≤ cfg.historyLength := by
            by_cases hnf : s.chan.chanState = ChannelState.NOT_FULL
            · exact Nat.le_of_lt (h.1 hnf)
            · exact Nat.le_of_eq (h.2 hnf)
          have hproj : (stepEvent cfg bk s (PCEvent.block samples)).chan =
              (process cfg bk s.haveSentWarning s.chan samples).chan := rfl
          have hpf := process_chan_fifo cfg bk s.haveSentWarning s.chan samples h1 h2 h3
          have hlen := fifoAfter_length cfg bk s.chan samples hfifoLe
          constructor
          · intro hx
            rw [hproj, hpf.1, nextChanState_spec] at hx
            rw [hproj, hpf.2, hlen]
            split at hx
            · simp at hx
            · rename_i hcond
              have hcount := h.1 hx
              have hnw : ¬ (cfg.historyLength ≤
                  s.chan.fifo.length + min samples.length cfg.historyLength) := by
                intro hle
                exact hcond ⟨hx, (willBecomeFull_iff cfg s.chan samples.length).mpr ⟨hx, hle⟩⟩
              omega
          · intro hx
            rw [hproj, hpf.1, nextChanState_spec] at hx
            rw [hproj, hpf.2, hlen]
            split at hx
            · rename_i hcond
              have hle := ((willBecomeFull_iff cfg s.chan samples.length).mp hcond.2).2
              omega
            · have hcount := h.2 hx
              omega

theorem fifoInv_run (cfg : Config) (bk : Backends) (hl1 : 1 ≤ cfg.historyLength)
    (evs : List PCEvent) : fifoInv cfg (runEvents cfg bk evs) := by
  unfold runEvents
  have hgen : ∀ (l : List PCEvent) (s : EngineState), fifoInv cfg s →
      fifoInv cfg (List.foldl (stepEvent cfg bk) s l) := by
    intro l
    induction l with
    | nil => exact fun s hs => hs
    | cons e tl ih => exact fun s hs => ih _ (fifoInv_step cfg bk hl1 s e hs)
  exact hgen evs initState (fifoInv_init cfg hl1)

theorem stepEvent_FULL_AR_source (cfg : Config) (bk : Backends) (s : EngineState)
    (e : PCEvent)
    (h : (stepEvent cfg bk s e).chan.chanState = ChannelState.FULL_AR) :
    s.chan.chanState = ChannelState.FULL_AR ∨
      s.chan.chanState = ChannelState.FULL_NO_AR := by
  cases e with
  | block samples =>
    have hproj : (stepEvent cfg bk s (PCEvent.block samples)).chan =
        (process cfg bk s.haveSentWarning s.chan samples).chan := rfl
    rw [hproj] at h
    rcases process_chanState cfg bk s.haveSentWarning s.chan samples with hc | hc
    · rw [hc] at h
      exact Or.inl h
    · rw [hc.1] at h
      simp at h
  | arFit =>
    by_cases hnf : s.chan.chanState = ChannelState.NOT_FULL
    · exfalso
      simp [stepEvent, runFitChannel, hnf] at h
    · cases hcs : s.chan.chanState with
      | NOT_FULL => exact absurd hcs hnf
      | FULL_NO_AR => exact Or.inr rfl
      | FULL_AR => exact Or.inl rfl
  | disable =>
    exfalso
    simp [stepEvent] at h

theorem foldl_FULL_AR_mem (cfg : Config) (bk : Backends) (evs : List PCEvent)
    (s : EngineState)
    (h : (List.foldl (stepEvent cfg bk) s evs).chan.chanState = ChannelState.FULL_AR) :
    s.chan.chanState = ChannelState.FULL_AR ∨
      ChannelState.FULL_NO_AR ∈
        (List.scanl (stepEvent cfg bk) s evs).map (fun t => t.chan.chanState) := by
  induction evs generalizing s with
  | nil =>
    left
    simpa using h
  | cons e tl ih =>
    rw [List.foldl_cons] at h
    rcases ih (stepEvent cfg bk s e) h with h1 | h1
    · rcases stepEvent_FULL_AR_source cfg bk s e h1 with h2 | h2
      · exact Or.inl h2
      · right
        rw [List.scanl_cons]
        simp only [List.singleton_append, List.map_cons, List.mem_cons]
        exact Or.inl h2.symm
    · right
      rw [List.scanl_cons]
      simp only [List.singleton_append, List.map_cons, List.mem_cons]
      exact Or.inr h1

/-- C4: channel state transitions are forward-only — a step either keeps the
state, promotes `NOT_FULL → FULL_NO_AR` (only in a processed block), promotes
a non-`NOT_FULL` state to `FULL_AR` (only in an AR-thread sweep), or resets to
`NOT_FULL` (only on `disable`); along any event trace from the initial state a
`NOT_FULL` channel's fifo is strictly below `historyLength` and any other
state has exactly `historyLength` samples; a `NOT_FULL` channel is promoted by
a processed block exactly when its fifo reaches `historyLength`; and a channel
that is in `FULL_AR` after a trace has visited `FULL_NO_AR`. -/
theorem channelState_machine (cfg : Config) (bk : Backends)
    (hl1 : 1 ≤ cfg.historyLength) :
    (∀ (s : EngineState) (e : PCEvent),
      ((stepEvent cfg bk s e).chan.chanState = s.chan.chanState) ∨
      (s.chan.chanState = ChannelState.NOT_FULL ∧
        (stepEvent cfg bk s e).chan.chanState = ChannelState.FULL_NO_AR ∧
        ∃ samples, e = PCEvent.block samples) ∨
      (¬ s.chan.chanState = ChannelState.NOT_FULL ∧
        (stepEvent cfg bk s e).chan.chanState = ChannelState.FULL_AR ∧
        e = PCEvent.arFit) ∨
      ((stepEvent cfg bk s e).chan.chanState = ChannelState.NOT_FULL ∧
        e = PCEvent.disable)) ∧
    (∀ evs : List PCEvent,
      ((runEvents cfg bk evs).chan.chanState = ChannelState.NOT_FULL →
        (runEvents cfg bk evs).chan.fifo.length < cfg.historyLength) ∧
      (¬ (runEvents cfg bk evs).chan.chanState = ChannelState.NOT_FULL →
        (runEvents cfg bk evs).chan.fifo.length = cfg.historyLength)) ∧
    (∀ (s : EngineState) (samples : List ℚ),
      s.chan.chanState = ChannelState.NOT_FULL →
      s.chan.fifo.length ≤ cfg.historyLength →
      ¬ cfg.shouldProcessChannel = false →
      ¬ (cfg.processADC = false ∧
        (cfg.chanType = ChannelType.ADC_CHANNEL ∨ cfg.chanType = ChannelType.AUX_CHANNEL)) →
      ¬ samples.length = 0 →
      ((stepEvent cfg bk s (PCEvent.block samples)).chan.chanState =
          ChannelState.FULL_NO_AR ↔
        (stepEvent cfg bk s (PCEvent.block samples)).chan.fifo.length =
          cfg.historyLength)) ∧
    (∀ evs : List PCEvent,
      (runEvents cfg bk evs).chan.chanState = ChannelState.FULL_AR →
      ChannelState.FULL_NO_AR ∈ statesOf cfg bk evs) := by
  refine ⟨?_, ?_, ?_, ?_⟩
  · intro s e
    cases e with
    | block samples =>
      have hproj : (stepEvent cfg bk s (PCEvent.block samples)).chan =
          (process cfg bk s.haveSentWarning s.chan samples).chan := rfl
      rcases process_chanState cfg bk s.haveSentWarning s.chan samples with hc | hc
      · exact Or.inl (by rw [hproj, hc])
      · exact Or.inr (Or.inl ⟨hc.2, by rw [hproj, hc.1], samples, rfl⟩)
    | arFit =>
      by_cases hnf : s.chan.chanState = ChannelState.NOT_FULL
      · exact Or.inl (by simp [stepEvent, runFitChannel, hnf])
      · exact Or.inr (Or.inr (Or.inl ⟨hnf, by simp [stepEvent, runFitChannel, hnf], rfl⟩))
    | disable =>
      exact Or.inr (Or.inr (Or.inr ⟨rfl, rfl⟩))
  · intro evs
    exact fifoInv_run cfg bk hl1 evs
  · intro s samples hnf hfifoLe h1 h2 h3
    have hpf := process_chan_fifo cfg bk s.haveSentWarning s.chan samples h1 h2 h3
    have hproj : (stepEvent cfg bk s (PCEvent.block samples)).chan =
        (process cfg bk s.haveSentWarning s.chan samples).chan := rfl
    rw [hproj, hpf.1, hpf.2, nextChanState_spec,
      fifoAfter_length cfg bk s.chan samples hfifoLe]
    constructor
    · intro hx
      split at hx
      · rename_i hcond
        have hle := ((willBecomeFull_iff cfg s.chan samples.length).mp hcond.2).2
        omega
      · rw [hnf] at hx
        simp at hx
    · intro hx
      have hle : cfg.historyLength ≤ s.chan.fifo.length + min samples.length cfg.historyLength := by
        omega
      rw [if_pos ⟨hnf, (willBecomeFull_iff cfg s.chan samples.length).mpr ⟨hnf, hle⟩⟩]
  · intro evs h
    have := foldl_FULL_AR_mem cfg bk evs initState h
    rcases this with h1 | h1
    · exact absurd h1 (by intro hx; cases hx)
    · exact h1

/-- Witness for `channelState_machine`: with history length 1, a first
one-sample block promotes the initial `NOT_FULL` channel to `FULL_NO_AR`, and
the promotion criterion (fifo reaching `historyLength`) holds concretely. -/
theorem channelState_machine_witness :
    (1 : ℕ) ≤ (⟨1, 0, 0, true, true, ChannelType.HEADSTAGE_CHANNEL⟩ : Config).historyLength ∧
    ((stepEvent ⟨1, 0, 0, true, true, ChannelType.HEADSTAGE_CHANNEL⟩ trivialBackends
        initState (PCEvent.block [5])).chan.chanState = ChannelState.FULL_NO_AR ↔
      (stepEvent ⟨1, 0, 0, true, true, ChannelType.HEADSTAGE_CHANNEL⟩ trivialBackends
        initState (PCEvent.block [5])).chan.fifo.length =
        (⟨1, 0, 0, true, true, ChannelType.HEADSTAGE_CHANNEL⟩ : Config).historyLength) := by
  constructor
  · decide
  · exact (channelState_machine ⟨1, 0, 0, true, true, ChannelType.HEADSTAGE_CHANNEL⟩
      trivialBackends (by decide)).2.2.1 initState [5] rfl (by decide)
      (by decide) (by simp) (by decide)
